import Mathlib

/-!
Shallow embedding of the Othello search agent (`agent.py`).

The agent imports its rules engine (`othello_shared`: `get_possible_moves`,
`play_move`, `get_score`) from a collaborator module that is not part of the
core; following the specification these are kept abstract as a `Rules`
structure.  Moves and other dynamically-typed Python values are embedded as
the small universe `PyVal`; Python's IEEE infinities used for search
initialization are embedded as `XInt`; the global dictionary `cached` is an
explicit association list threaded through every call; recursion is made
total with an explicit fuel parameter (`none` = fuel exhausted), since the
Python recursion has no structural bound when the depth limit is negative.
-/

set_option autoImplicit false

/-- Dynamically-typed Python values as far as the agent manipulates them:
`None`, integers, and two-element tuples/lists (moves `(i, j)` and the
`[move, utility]` pairs built by the ordering branch). -/
inductive PyVal where
  | none
  | int (n : Int)
  | pair (a b : PyVal)
deriving DecidableEq, Repr

/-- Python indexing `v[k]` for the two-element tuples/lists the agent uses
(`move[0]`, `move[1]`).  Out-of-range or non-indexable access is mapped to
`None` (the agent only indexes pairs on its reachable paths). -/
def PyVal.idx : PyVal → Nat → PyVal
  | pair a _, 0 => a
  | pair _ b, 1 => b
  | _, _ => PyVal.none

/-- Numeric reading of a `PyVal` (used for the ordering sort key `x[1]`). -/
def PyVal.asInt : PyVal → Int
  | int n => n
  | _ => 0

/-- Python numeric values occurring in the search: integers together with the
sentinels `float("-inf")` / `float("inf")` used to initialize `value`,
`alpha` and `beta`. -/
inductive XInt where
  | negInf
  | fin (n : Int)
  | posInf
deriving DecidableEq, Repr

/-- Strict comparison `a < b` on `XInt`, matching Python's comparison of
ints and infinities. -/
def XInt.blt : XInt → XInt → Bool
  | negInf, negInf => false
  | negInf, _ => true
  | fin _, negInf => false
  | fin a, fin b => decide (a < b)
  | fin _, posInf => true
  | posInf, _ => false

/-- Comparison `a <= b` on `XInt`. -/
def XInt.ble : XInt → XInt → Bool
  | negInf, _ => true
  | fin _, negInf => false
  | fin a, fin b => decide (a ≤ b)
  | fin _, posInf => true
  | posInf, posInf => true
  | posInf, _ => false

/-- Python `min(a, b)`: returns `a` unless `b` is strictly smaller. -/
def XInt.minv (a b : XInt) : XInt := if XInt.blt b a then b else a

/-- Python `max(a, b)`: returns `a` unless `b` is strictly larger. -/
def XInt.maxv (a b : XInt) : XInt := if XInt.blt a b then b else a

/-- First-match lookup in an association list (Python `k in d` / `d[k]`). -/
def lookupC {K V : Type} [DecidableEq K] : List (K × V) → K → Option V
  | [], _ => Option.none
  | (k, v) :: t, b => if k = b then some v else lookupC t b

/-- Python dict assignment `d[k] = v`: overwrite in place if the key exists,
otherwise append, preserving insertion order. -/
def insertC {K V : Type} [DecidableEq K] : List (K × V) → K → V → List (K × V)
  | [], b, v => [(b, v)]
  | (k, w) :: t, b, v => if k = b then (b, v) :: t else (k, w) :: insertC t b v

/-- The global dictionary `cached`, mapping a board to the
`(next_move, next_value)` pair previously stored for it. -/
abbrev Cache (B : Type) : Type := List (B × (PyVal × XInt))

/-- Modelled from the spec: the external rules-engine collaborator
(`othello_shared`, not part of the core source): `legalMoves(board, color)`
(a possibly empty sequence of moves), `applyMove` producing a new immutable
board, and `score(board) -> (countA, countB)`. -/
structure Rules (B : Type) where
  get_possible_moves : B → Int → List PyVal
  play_move : B → Int → PyVal → PyVal → B
  get_score : B → Int × Int

section Agent

variable {B : Type} [DecidableEq B]

/-- `compute_utility(board, color)`: the signed disk-count differential for
`color`, from `get_score`. -/
def compute_utility (R : Rules B) (board : B) (color : Int) : Int :=
  let score := R.get_score board
  if color = 1 then score.1 - score.2 else score.2 - score.1

/-- Stable insertion of `x` into a descending-sorted list: `x` goes before
the first element whose key it reaches (models Python's stable
`sorted(..., reverse=True)` placement). -/
def insertDesc (key : PyVal → Int) (x : PyVal) : List PyVal → List PyVal
  | [] => [x]
  | y :: t => if key y ≤ key x then x :: y :: t else y :: insertDesc key x t

/-- Python `sorted(l, key=key, reverse=True)`: stable descending sort. -/
def sortedDesc (key : PyVal → Int) : List PyVal → List PyVal
  | [] => []
  | x :: t => insertDesc key x (sortedDesc key t)

/-- `compute_heuristic(board, color)`: with no legal moves it returns the
tuple `(None, compute_utility(board, color))`; otherwise it filters the
moves through its two one-ply tests into the dict `potential_moves` and
returns `best_move` alone (the bare move, or `None` when no move survives),
exactly as the Python `return best_move` does. -/
def compute_heuristic (R : Rules B) (board : B) (color : Int) : PyVal :=
  let moves := R.get_possible_moves board color
  if moves = [] then
    PyVal.pair PyVal.none (PyVal.int (compute_utility R board color))
  else
    let opponent : Int := if color = 1 then 2 else 1
    let potential_moves : List (PyVal × Int) :=
      moves.foldl (fun acc move =>
        let next_board := R.play_move board color (move.idx 0) (move.idx 1)
        let movability := (R.get_possible_moves next_board opponent).length
        if movability = 0 ∧
            |compute_utility R next_board opponent| < |compute_utility R board color| then
          acc
        else
          let util_diff :=
            |compute_utility R board color| - |compute_utility R next_board opponent|
          if util_diff < 0 then acc else insertC acc move util_diff) []
    (potential_moves.foldl
      (fun bv kv =>
        if XInt.blt bv.2 (XInt.fin kv.2) then (kv.1, XInt.fin kv.2) else bv)
      (PyVal.none, XInt.negInf)).1

/-- Update condition of the minimax loops: `value < next_value` at a
maximize node, `value > next_value` at a minimize node. -/
def mmBetter (isMax : Bool) (value nv : XInt) : Bool :=
  if isMax then XInt.blt value nv else XInt.blt nv value

/-- Initial `value` of the loops: `float("-inf")` at a maximize node,
`float("inf")` at a minimize node. -/
def mmInit (isMax : Bool) : XInt :=
  if isMax then XInt.negInf else XInt.posInf

/-- One loop iteration's child-value computation, shared by both engines:
consult the cache unconditionally (the `caching` flag is never read by the
Python code); on a miss run the recursive child and store its result, keyed
by the successor board.  Returns the child's value and the updated cache, or
`none` if the child ran out of fuel. -/
def mm_child_step (child : B → Cache B → Option (PyVal × XInt × Cache B))
    (nb : B) (cache : Cache B) : Option (XInt × Cache B) :=
  match lookupC cache nb with
  | some (_, nv) => some (nv, cache)
  | Option.none =>
    match child nb cache with
    | Option.none => Option.none
    | some (nm, nv, cache1) => some (nv, insertC cache1 nb (nm, nv))

/-- The `for move in moves` loop shared by `minimax_min_node` and
`minimax_max_node`: produce the successor board, get the child value through
the cache, update `(value, best_move)` on strict improvement, and thread the
cache. -/
def mm_loop (playm : PyVal → B)
    (child : B → Cache B → Option (PyVal × XInt × Cache B))
    (better : XInt → XInt → Bool) :
    List PyVal → XInt → PyVal → Cache B → Option (PyVal × XInt × Cache B)
  | [], value, best, cache => some (best, value, cache)
  | m :: rest, value, best, cache =>
    match mm_child_step child (playm m) cache with
    | Option.none => Option.none
    | some (nv, cache2) =>
      if better value nv then mm_loop playm child better rest nv m cache2
      else mm_loop playm child better rest value best cache2

/-- `minimax_max_node` (`isMax = true`) and `minimax_min_node`
(`isMax = false`) as one fuel-indexed function: the two Python bodies differ
only in the initial `value` and the comparison direction.  Terminal when the
mover has no legal moves or `limit == 0`; otherwise runs the loop over the
legal moves with the recursive call at `limit - 1` for the opponent. -/
def minimax_node (R : Rules B) :
    Nat → Bool → B → Int → Int → Int → Cache B → Option (PyVal × XInt × Cache B)
  | 0, _, _, _, _, _, _ => Option.none
  | fuel + 1, isMax, board, color, limit, caching, cache =>
    let moves := R.get_possible_moves board color
    if moves = [] ∨ limit = 0 then
      some (PyVal.none, XInt.fin (compute_utility R board color), cache)
    else
      let opponent : Int := if color = 1 then 2 else 1
      mm_loop (fun m => R.play_move board color (m.idx 0) (m.idx 1))
        (fun nb c => minimax_node R fuel (!isMax) nb opponent (limit - 1) caching c)
        (mmBetter isMax) moves (mmInit isMax) PyVal.none cache

/-- `minimax_max_node(board, color, limit, caching)`. -/
def minimax_max_node (R : Rules B) (fuel : Nat) (board : B)
    (color limit caching : Int) (cache : Cache B) :
    Option (PyVal × XInt × Cache B) :=
  minimax_node R fuel true board color limit caching cache

/-- `minimax_min_node(board, color, limit, caching)`. -/
def minimax_min_node (R : Rules B) (fuel : Nat) (board : B)
    (color limit caching : Int) (cache : Cache B) :
    Option (PyVal × XInt × Cache B) :=
  minimax_node R fuel false board color limit caching cache

/-- `select_move_minimax(board, color, limit, caching)`: the move component
of `minimax_max_node`. -/
def select_move_minimax (R : Rules B) (fuel : Nat) (board : B)
    (color limit caching : Int) (cache : Cache B) : Option PyVal :=
  (minimax_max_node R fuel board color limit caching cache).map (fun r => r.1)

/-- Cutoff test of the alpha-beta loops: `value >= beta` at a maximize node,
`value <= alpha` at a minimize node. -/
def abStop (isMax : Bool) (value alpha beta : XInt) : Bool :=
  if isMax then XInt.ble beta value else XInt.ble value alpha

/-- The `for move in moves` loop shared by `alphabeta_max_node` and
`alphabeta_min_node`: like the minimax loop but additionally returning early
on cutoff and tightening `alpha` (maximize) or `beta` (minimize). -/
def ab_loop (isMax : Bool) (playm : PyVal → B)
    (child : B → XInt → XInt → Cache B → Option (PyVal × XInt × Cache B)) :
    List PyVal → XInt → PyVal → XInt → XInt → Cache B →
      Option (PyVal × XInt × Cache B)
  | [], value, best, _, _, cache => some (best, value, cache)
  | m :: rest, value, best, alpha, beta, cache =>
    match mm_child_step (fun nb c => child nb alpha beta c) (playm m) cache with
    | Option.none => Option.none
    | some (nv, cache2) =>
      let value' := if mmBetter isMax value nv then nv else value
      let best' := if mmBetter isMax value nv then m else best
      if abStop isMax value' alpha beta then some (best', value', cache2)
      else
        ab_loop isMax playm child rest value' best'
          (if isMax then XInt.maxv alpha value' else alpha)
          (if isMax then beta else XInt.minv beta value') cache2

/-- `alphabeta_max_node` (`isMax = true`) and `alphabeta_min_node`
(`isMax = false`) as one fuel-indexed function.  When `ordering` is nonzero
the iterated list is replaced by the `[(move, one-ply utility)]` pairs
sorted descending by that utility — the loop then indexes those pairs as if
they were moves, exactly as the Python code does. -/
def alphabeta_node (R : Rules B) :
    Nat → Bool → B → Int → XInt → XInt → Int → Int → Int → Cache B →
      Option (PyVal × XInt × Cache B)
  | 0, _, _, _, _, _, _, _, _, _ => Option.none
  | fuel + 1, isMax, board, color, alpha, beta, limit, caching, ordering, cache =>
    let moves := R.get_possible_moves board color
    if moves = [] ∨ limit = 0 then
      some (PyVal.none, XInt.fin (compute_utility R board color), cache)
    else
      let opponent : Int := if color = 1 then 2 else 1
      let moves' :=
        if ordering ≠ 0 then
          sortedDesc (fun x => (x.idx 1).asInt)
            (moves.map (fun m =>
              PyVal.pair m (PyVal.int
                (compute_utility R
                  (R.play_move board color (m.idx 0) (m.idx 1)) color))))
        else moves
      ab_loop isMax (fun m => R.play_move board color (m.idx 0) (m.idx 1))
        (fun nb a b c =>
          alphabeta_node R fuel (!isMax) nb opponent a b (limit - 1) caching
            ordering c)
        moves' (mmInit isMax) PyVal.none alpha beta cache

/-- `alphabeta_max_node(board, color, alpha, beta, limit, caching, ordering)`. -/
def alphabeta_max_node (R : Rules B) (fuel : Nat) (board : B) (color : Int)
    (alpha beta : XInt) (limit caching ordering : Int) (cache : Cache B) :
    Option (PyVal × XInt × Cache B) :=
  alphabeta_node R fuel true board color alpha beta limit caching ordering cache

/-- `alphabeta_min_node(board, color, alpha, beta, limit, caching, ordering)`. -/
def alphabeta_min_node (R : Rules B) (fuel : Nat) (board : B) (color : Int)
    (alpha beta : XInt) (limit caching ordering : Int) (cache : Cache B) :
    Option (PyVal × XInt × Cache B) :=
  alphabeta_node R fuel false board color alpha beta limit caching ordering cache

/-- `select_move_alphabeta(board, color, limit, caching, ordering)`: the move
component of `alphabeta_max_node` started at `(-inf, +inf)`. -/
def select_move_alphabeta (R : Rules B) (fuel : Nat) (board : B)
    (color limit caching ordering : Int) (cache : Cache B) : Option PyVal :=
  (alphabeta_max_node R fuel board color XInt.negInf XInt.posInf limit caching
    ordering cache).map (fun r => r.1)

/-- The list of child values the minimax loop sees, in move order, with the
same cache threading as the loop; used to state the tie-break property. -/
def mm_childVals (playm : PyVal → B)
    (child : B → Cache B → Option (PyVal × XInt × Cache B)) :
    List PyVal → Cache B → Option (List XInt × Cache B)
  | [], cache => some ([], cache)
  | m :: rest, cache =>
    match mm_child_step child (playm m) cache with
    | Option.none => Option.none
    | some (nv, cache2) =>
      match mm_childVals playm child rest cache2 with
      | Option.none => Option.none
      | some (vals, cfin) => some (nv :: vals, cfin)

/-- Pure fold over the `(move, child value)` pairs mirroring the loop's
best-move bookkeeping: update on strict improvement only. -/
def foldPick (better : XInt → XInt → Bool) :
    List (PyVal × XInt) → XInt → PyVal → PyVal × XInt
  | [], value, best => (best, value)
  | (m, nv) :: rest, value, best =>
    if better value nv then foldPick better rest nv m
    else foldPick better rest value best

/-- Caches all of whose stored values are finite integers.  The empty cache
satisfies this, and every cache produced by the search does. -/
def FinCache (cache : Cache B) : Prop :=
  ∀ p ∈ cache, ∃ n : Int, p.2.2 = XInt.fin n

/-- Tie-break specification over the `(move, child value)` list of a node:
`(bm, v)` is the `i`-th entry, every entry before position `i` is strictly
worse than `v` (so `bm` strictly improved on all its predecessors), and no
entry anywhere is strictly better than `v` (a later equal value never
replaces the remembered move). -/
def FirstStrictBest (better : XInt → XInt → Bool)
    (l : List (PyVal × XInt)) (bm : PyVal) (v : XInt) : Prop :=
  ∃ i, ∃ hi : i < l.length,
    bm = (l.get ⟨i, hi⟩).1 ∧ v = (l.get ⟨i, hi⟩).2 ∧
    (∀ x ∈ l.take i, better x.2 v = true) ∧
    (∀ x ∈ l, better v x.2 = false)

end Agent

/-! ### Concrete rules-engine instances used for counterexamples and witnesses

Boards are labelled by integers; moves are coordinate pairs.  `toy` is a
small game tree containing a transposition (board `4` is reachable both from
board `1` and from board `2`), which is where the always-on, board-keyed
cache interacts with alpha-beta pruning. -/

/-- Shorthand for the move `(i, j)`. -/
def pv (i j : Int) : PyVal := PyVal.pair (PyVal.int i) (PyVal.int j)

/-- Legal moves of the `toy` game, by board label. -/
def toyMoves (b : Int) : List PyVal :=
  if b = 0 ∨ b = 1 ∨ b = 2 ∨ b = 4 then [pv 0 0, pv 1 1]
  else if b = 8 ∨ b = 9 then [pv 0 0]
  else []

/-- Move application of the `toy` game: board `0` leads to `1`, `2`; board
`1` to `3`, `4`; board `2` to `4` (the transposition), `5`; board `4` to
`6`, `7`; board `8` to `9`.  Anything else goes to the sink board `99`. -/
def toyPlay (b : Int) (i : PyVal) : Int :=
  if b = 0 then (if i = PyVal.int 0 then 1 else if i = PyVal.int 1 then 2 else 99)
  else if b = 1 then (if i = PyVal.int 0 then 3 else if i = PyVal.int 1 then 4 else 99)
  else if b = 2 then (if i = PyVal.int 0 then 4 else if i = PyVal.int 1 then 5 else 99)
  else if b = 4 then (if i = PyVal.int 0 then 6 else if i = PyVal.int 1 then 7 else 99)
  else if b = 8 then (if i = PyVal.int 0 then 9 else 99)
  else 99

/-- Disk counts of the `toy` game's boards. -/
def toyScore (b : Int) : Int × Int :=
  if b = 3 then (10, 0)
  else if b = 5 then (12, 0)
  else if b = 6 then (0, 10)
  else if b = 7 then (0, 18)
  else if b = 8 then (5, 0)
  else if b = 9 then (3, 0)
  else (0, 0)

/-- The `toy` rules engine. -/
def toy : Rules Int :=
  { get_possible_moves := fun b _ => toyMoves b
    play_move := fun b _ i _ => toyPlay b i
    get_score := toyScore }

/-- A rules engine with no legal move on any board. -/
def emptyRules : Rules Int :=
  { get_possible_moves := fun _ _ => []
    play_move := fun _ _ _ _ => 0
    get_score := fun _ => (0, 0) }

/-- A rules engine whose boards are counters: board `b > 0` has one legal
move leading to `b - 1`, board `0` has none.  Every move strictly decreases
the board label, the measure used for the termination claim. -/
def toyTerm : Rules Nat :=
  { get_possible_moves := fun b _ => if b = 0 then [] else [pv 0 0]
    play_move := fun b _ _ _ => b - 1
    get_score := fun _ => (0, 0) }

/-! ### Helper lemmas -/

theorem mm_loop_mem {B : Type} [DecidableEq B] (playm : PyVal → B)
    (child : B → Cache B → Option (PyVal × XInt × Cache B))
    (better : XInt → XInt → Bool) :
    ∀ (ms : List PyVal) (value : XInt) (best : PyVal) (cache : Cache B)
      (r : PyVal × XInt × Cache B),
      mm_loop playm child better ms value best cache = some r →
      r.1 = best ∨ r.1 ∈ ms := by
  intro ms
  induction ms with
  | nil =>
    intro value best cache r h
    simp only [mm_loop, Option.some.injEq] at h
    exact Or.inl (by rw [← h])
  | cons m rest ih =>
    intro value best cache r h
    simp only [mm_loop] at h
    cases hstep : mm_child_step child (playm m) cache with
    | none => rw [hstep] at h; exact absurd h (by simp)
    | some p =>
      obtain ⟨nv, cache2⟩ := p
      rw [hstep] at h
      simp only at h
      by_cases hb : better value nv
      · rw [if_pos hb] at h
        rcases ih nv m cache2 r h with h1 | h1
        · exact Or.inr (by rw [h1]; exact List.mem_cons_self m rest)
        · exact Or.inr (List.mem_cons_of_mem m h1)
      · rw [if_neg hb] at h
        rcases ih value best cache2 r h with h1 | h1
        · exact Or.inl h1
        · exact Or.inr (List.mem_cons_of_mem m h1)

theorem ab_loop_mem {B : Type} [DecidableEq B] (isMax : Bool)
    (playm : PyVal → B)
    (child : B → XInt → XInt → Cache B → Option (PyVal × XInt × Cache B)) :
    ∀ (ms : List PyVal) (value : XInt) (best : PyVal) (alpha beta : XInt)
      (cache : Cache B) (r : PyVal × XInt × Cache B),
      ab_loop isMax playm child ms value best alpha beta cache = some r →
      r.1 = best ∨ r.1 ∈ ms := by
  intro ms
  induction ms with
  | nil =>
    intro value best alpha beta cache r h
    simp only [ab_loop, Option.some.injEq] at h
    exact Or.inl (by rw [← h])
  | cons m rest ih =>
    intro value best alpha beta cache r h
    simp only [ab_loop] at h
    cases hstep : mm_child_step (fun nb c => child nb alpha beta c) (playm m) cache with
    | none => rw [hstep] at h; exact absurd h (by simp)
    | some p =>
      obtain ⟨nv, cache2⟩ := p
      rw [hstep] at h
      simp only at h
      by_cases hb : mmBetter isMax value nv
      · simp only [if_pos hb] at h
        by_cases hs : abStop isMax nv alpha beta
        · rw [if_pos hs] at h
          simp only [Option.some.injEq] at h
          exact Or.inr (by rw [← h]; exact List.mem_cons_self m rest)
        · rw [if_neg hs] at h
          rcases ih nv m _ _ cache2 r h with h1 | h1
          · exact Or.inr (by rw [h1]; exact List.mem_cons_self m rest)
          · exact Or.inr (List.mem_cons_of_mem m h1)
      · simp only [if_neg hb] at h
        by_cases hs : abStop isMax value alpha beta
        · rw [if_pos hs] at h
          simp only [Option.some.injEq] at h
          exact Or.inl (by rw [← h])
        · rw [if_neg hs] at h
          rcases ih value best _ _ cache2 r h with h1 | h1
          · exact Or.inl h1
          · exact Or.inr (List.mem_cons_of_mem m h1)

theorem minimax_node_mem {B : Type} [DecidableEq B] (R : Rules B)
    (fuel : Nat) (isMax : Bool) (board : B) (color limit caching : Int)
    (cache : Cache B) (r : PyVal × XInt × Cache B)
    (h : minimax_node R fuel isMax board color limit caching cache = some r) :
    r.1 = PyVal.none ∨ r.1 ∈ R.get_possible_moves board color := by
  cases fuel with
  | zero => exact absurd h (by simp [minimax_node])
  | succ fuel =>
    simp only [minimax_node] at h
    by_cases hterm : R.get_possible_moves board color = [] ∨ limit = 0
    · rw [if_pos hterm] at h
      simp only [Option.some.injEq] at h
      exact Or.inl (by rw [← h])
    · rw [if_neg hterm] at h
      exact mm_loop_mem _ _ _ _ _ _ _ _ h

theorem alphabeta_node_mem {B : Type} [DecidableEq B] (R : Rules B)
    (fuel : Nat) (isMax : Bool) (board : B) (color : Int) (alpha beta : XInt)
    (limit caching : Int) (cache : Cache B) (r : PyVal × XInt × Cache B)
    (h : alphabeta_node R fuel isMax board color alpha beta limit caching 0
        cache = some r) :
    r.1 = PyVal.none ∨ r.1 ∈ R.get_possible_moves board color := by
  cases fuel with
  | zero => exact absurd h (by simp [alphabeta_node])
  | succ fuel =>
    simp only [alphabeta_node] at h
    by_cases hterm : R.get_possible_moves board color = [] ∨ limit = 0
    · rw [if_pos hterm] at h
      simp only [Option.some.injEq] at h
      exact Or.inl (by rw [← h])
    · rw [if_neg hterm] at h
      simp only [ne_eq, not_true_eq_false, if_false] at h
      exact ab_loop_mem _ _ _ _ _ _ _ _ _ _ h

theorem mm_child_step_congr {B : Type} [DecidableEq B]
    (child1 child2 : B → Cache B → Option (PyVal × XInt × Cache B))
    (h : ∀ nb c, child1 nb c = child2 nb c) (nb : B) (cache : Cache B) :
    mm_child_step child1 nb cache = mm_child_step child2 nb cache := by
  simp only [mm_child_step, h]

theorem mm_loop_congr {B : Type} [DecidableEq B] (playm : PyVal → B)
    (child1 child2 : B → Cache B → Option (PyVal × XInt × Cache B))
    (better : XInt → XInt → Bool)
    (h : ∀ nb c, child1 nb c = child2 nb c) :
    ∀ (ms : List PyVal) (value : XInt) (best : PyVal) (cache : Cache B),
      mm_loop playm child1 better ms value best cache
        = mm_loop playm child2 better ms value best cache := by
  intro ms
  induction ms with
  | nil => intro value best cache; rfl
  | cons m rest ih =>
    intro value best cache
    simp only [mm_loop]
    rw [mm_child_step_congr child1 child2 h]
    cases mm_child_step child2 (playm m) cache with
    | none => rfl
    | some p =>
      obtain ⟨nv, cache2⟩ := p
      simp only
      by_cases hb : better value nv
      · rw [if_pos hb, if_pos hb]; exact ih nv m cache2
      · rw [if_neg hb, if_neg hb]; exact ih value best cache2

theorem ab_loop_congr {B : Type} [DecidableEq B] (isMax : Bool)
    (playm : PyVal → B)
    (child1 child2 : B → XInt → XInt → Cache B → Option (PyVal × XInt × Cache B))
    (h : ∀ nb a b c, child1 nb a b c = child2 nb a b c) :
    ∀ (ms : List PyVal) (value : XInt) (best : PyVal) (alpha beta : XInt)
      (cache : Cache B),
      ab_loop isMax playm child1 ms value best alpha beta cache
        = ab_loop isMax playm child2 ms value best alpha beta cache := by
  intro ms
  induction ms with
  | nil => intro value best alpha beta cache; rfl
  | cons m rest ih =>
    intro value best alpha beta cache
    simp only [ab_loop]
    rw [mm_child_step_congr (fun nb c => child1 nb alpha beta c)
      (fun nb c => child2 nb alpha beta c) (fun nb c => h nb alpha beta c)]
    cases mm_child_step (fun nb c => child2 nb alpha beta c) (playm m) cache with
    | none => rfl
    | some p =>
      obtain ⟨nv, cache2⟩ := p
      simp only
      by_cases hb : mmBetter isMax value nv
      · simp only [if_pos hb]
        by_cases hs : abStop isMax nv alpha beta
        · rw [if_pos hs, if_pos hs]
        · rw [if_neg hs, if_neg hs]; exact ih nv m _ _ cache2
      · simp only [if_neg hb]
        by_cases hs : abStop isMax value alpha beta
        · rw [if_pos hs, if_pos hs]
        · rw [if_neg hs, if_neg hs]; exact ih value best _ _ cache2

theorem minimax_node_neg_limit {B : Type} [DecidableEq B] (R : Rules B) :
    ∀ (fuel : Nat) (isMax : Bool) (board : B) (color l1 l2 caching : Int)
      (cache : Cache B), l1 < 0 → l2 < 0 →
      minimax_node R fuel isMax board color l1 caching cache
        = minimax_node R fuel isMax board color l2 caching cache := by
  intro fuel
  induction fuel with
  | zero => intros; rfl
  | succ fuel ih =>
    intro isMax board color l1 l2 caching cache h1 h2
    simp only [minimax_node]
    by_cases hm : R.get_possible_moves board color = []
    · simp [hm]
    · have hc1 : ¬(R.get_possible_moves board color = [] ∨ l1 = 0) := by
        push_neg; exact ⟨hm, by omega⟩
      have hc2 : ¬(R.get_possible_moves board color = [] ∨ l2 = 0) := by
        push_neg; exact ⟨hm, by omega⟩
      rw [if_neg hc1, if_neg hc2]
      exact mm_loop_congr _ _ _ _
        (fun nb c => ih (!isMax) nb _ (l1 - 1) (l2 - 1) caching c
          (by omega) (by omega)) _ _ _ _

theorem alphabeta_node_neg_limit {B : Type} [DecidableEq B] (R : Rules B) :
    ∀ (fuel : Nat) (isMax : Bool) (board : B) (color : Int) (alpha beta : XInt)
      (l1 l2 caching ordering : Int) (cache : Cache B), l1 < 0 → l2 < 0 →
      alphabeta_node R fuel isMax board color alpha beta l1 caching ordering
          cache
        = alphabeta_node R fuel isMax board color alpha beta l2 caching
          ordering cache := by
  intro fuel
  induction fuel with
  | zero => intros; rfl
  | succ fuel ih =>
    intro isMax board color alpha beta l1 l2 caching ordering cache h1 h2
    simp only [alphabeta_node]
    by_cases hm : R.get_possible_moves board color = []
    · simp [hm]
    · have hc1 : ¬(R.get_possible_moves board color = [] ∨ l1 = 0) := by
        push_neg; exact ⟨hm, by omega⟩
      have hc2 : ¬(R.get_possible_moves board color = [] ∨ l2 = 0) := by
        push_neg; exact ⟨hm, by omega⟩
      rw [if_neg hc1, if_neg hc2]
      exact ab_loop_congr _ _ _ _
        (fun nb a b c => ih (!isMax) nb _ a b (l1 - 1) (l2 - 1) caching
          ordering c (by omega) (by omega)) _ _ _ _ _ _

theorem mm_loop_isSome {B : Type} [DecidableEq B] (playm : PyVal → B)
    (child : B → Cache B → Option (PyVal × XInt × Cache B))
    (better : XInt → XInt → Bool) :
    ∀ ms : List PyVal,
      (∀ m ∈ ms, ∀ c : Cache B, (child (playm m) c).isSome) →
      ∀ (value : XInt) (best : PyVal) (cache : Cache B),
        (mm_loop playm child better ms value best cache).isSome := by
  intro ms
  induction ms with
  | nil => intro _ value best cache; simp [mm_loop]
  | cons m rest ih =>
    intro hch value best cache
    simp only [mm_loop]
    have hstep : (mm_child_step child (playm m) cache).isSome := by
      simp only [mm_child_step]
      cases hl : lookupC cache (playm m) with
      | some p => obtain ⟨a, b⟩ := p; simp
      | none =>
        have hc := hch m (List.mem_cons_self m rest) cache
        cases hcc : child (playm m) cache with
        | none => rw [hcc] at hc; simp at hc
        | some q => obtain ⟨x, y, z⟩ := q; simp
    cases hs : mm_child_step child (playm m) cache with
    | none => rw [hs] at hstep; simp at hstep
    | some p =>
      obtain ⟨nv, cache2⟩ := p
      simp only
      by_cases hb : better value nv
      · rw [if_pos hb]
        exact ih (fun m' hm' => hch m' (List.mem_cons_of_mem m hm')) nv m cache2
      · rw [if_neg hb]
        exact ih (fun m' hm' => hch m' (List.mem_cons_of_mem m hm')) value best
          cache2

theorem minimax_node_isSome {B : Type} [DecidableEq B] (R : Rules B)
    (μ : B → Nat)
    (hμ : ∀ (b : B) (c : Int) (m : PyVal), m ∈ R.get_possible_moves b c →
      μ (R.play_move b c (m.idx 0) (m.idx 1)) < μ b) :
    ∀ (fuel : Nat) (board : B), μ board < fuel →
      ∀ (isMax : Bool) (color limit caching : Int) (cache : Cache B),
        (minimax_node R fuel isMax board color limit caching cache).isSome := by
  intro fuel
  induction fuel with
  | zero => intro board h; exact absurd h (Nat.not_lt_zero _)
  | succ fuel ih =>
    intro board hb isMax color limit caching cache
    simp only [minimax_node]
    by_cases hterm : R.get_possible_moves board color = [] ∨ limit = 0
    · rw [if_pos hterm]; simp
    · rw [if_neg hterm]
      apply mm_loop_isSome
      intro m hm c
      exact ih (R.play_move board color (m.idx 0) (m.idx 1))
        (by have := hμ board color m hm; omega) (!isMax) _ (limit - 1) caching c

theorem XInt.blt_irrefl (a : XInt) : XInt.blt a a = false := by
  cases a <;> simp [XInt.blt]

theorem XInt.blt_trans {a b c : XInt} (h1 : XInt.blt a b = true)
    (h2 : XInt.blt b c = true) : XInt.blt a c = true := by
  cases a <;> cases b <;> cases c <;> simp_all [XInt.blt] <;> omega

theorem XInt.blt_asymm {a b : XInt} (h : XInt.blt a b = true) :
    XInt.blt b a = false := by
  cases a <;> cases b <;> simp_all [XInt.blt] <;> omega

theorem XInt.blt_neg_trans {a b c : XInt} (h1 : XInt.blt a b = false)
    (h2 : XInt.blt a c = true) : XInt.blt b c = true := by
  cases a <;> cases b <;> cases c <;> simp_all [XInt.blt] <;> omega

theorem mmBetter_irrefl (isMax : Bool) (a : XInt) :
    mmBetter isMax a a = false := by
  cases isMax <;> simp [mmBetter, XInt.blt_irrefl]

theorem mmBetter_trans (isMax : Bool) {a b c : XInt}
    (h1 : mmBetter isMax a b = true) (h2 : mmBetter isMax b c = true) :
    mmBetter isMax a c = true := by
  cases isMax <;> simp only [mmBetter, if_true, if_false] at *
  · exact XInt.blt_trans h2 h1
  · exact XInt.blt_trans h1 h2

theorem mmBetter_asymm (isMax : Bool) {a b : XInt}
    (h : mmBetter isMax a b = true) : mmBetter isMax b a = false := by
  cases isMax <;> simp only [mmBetter, if_true, if_false] at *
  · exact XInt.blt_asymm h
  · exact XInt.blt_asymm h

theorem mmBetter_neg_trans (isMax : Bool) {a b c : XInt}
    (h1 : mmBetter isMax a b = false) (h2 : mmBetter isMax a c = true) :
    mmBetter isMax b c = true := by
  cases isMax <;> simp only [mmBetter, if_true, if_false] at *
  · cases b <;> cases a <;> cases c <;> simp_all [XInt.blt] <;> omega
  · exact XInt.blt_neg_trans h1 h2

theorem mmBetter_init_fin (isMax : Bool) (n : Int) :
    mmBetter isMax (mmInit isMax) (XInt.fin n) = true := by
  cases isMax <;> simp [mmBetter, mmInit, XInt.blt]

theorem mmInit_ne_fin (isMax : Bool) (n : Int) :
    mmInit isMax ≠ XInt.fin n := by
  cases isMax <;> simp [mmInit]

theorem foldPick_spec (better : XInt → XInt → Bool)
    (Hirr : ∀ a, better a a = false)
    (Htrans : ∀ {a b c}, better a b = true → better b c = true →
      better a c = true)
    (Hasym : ∀ {a b}, better a b = true → better b a = false)
    (Hneg : ∀ {a b c}, better a b = false → better a c = true →
      better b c = true) :
    ∀ (l : List (PyVal × XInt)) (value : XInt) (best : PyVal),
      (foldPick better l value best = (best, value) ∧
          ∀ x ∈ l, better value x.2 = false) ∨
        (∃ i, ∃ hi : i < l.length,
          foldPick better l value best
              = ((l.get ⟨i, hi⟩).1, (l.get ⟨i, hi⟩).2) ∧
            better value (l.get ⟨i, hi⟩).2 = true ∧
            (∀ x ∈ l.take i, better x.2 (l.get ⟨i, hi⟩).2 = true) ∧
            (∀ x ∈ l, better (l.get ⟨i, hi⟩).2 x.2 = false)) := by
  intro l
  induction l with
  | nil => intro value best; exact Or.inl ⟨rfl, by intro x hx; simp at hx⟩
  | cons hd rest ih =>
    intro value best
    obtain ⟨m, nv⟩ := hd
    by_cases hb : better value nv
    · right
      have hfold : foldPick better ((m, nv) :: rest) value best
          = foldPick better rest nv m := by simp [foldPick, hb]
      rcases ih nv m with ⟨heq, hall⟩ | ⟨i', hi', heq, hbv, htake, hall⟩
      · refine ⟨0, by simp, ?_, ?_, ?_, ?_⟩
        · rw [hfold, heq]; rfl
        · simpa using hb
        · intro x hx; simp at hx
        · intro x hx
          rcases List.mem_cons.mp hx with rfl | hx
          · simpa using Hirr nv
          · simpa using hall x hx
      · refine ⟨i' + 1, by simpa using Nat.succ_lt_succ hi', ?_, ?_, ?_, ?_⟩
        · rw [hfold, heq]; rfl
        · simpa using Htrans hb hbv
        · intro x hx
          rw [List.take_succ_cons] at hx
          rcases List.mem_cons.mp hx with rfl | hx
          · simpa using hbv
          · simpa using htake x hx
        · intro x hx
          rcases List.mem_cons.mp hx with rfl | hx
          · simpa using Hasym hbv
          · simpa using hall x hx
    · have hb' : better value nv = false := by
        simpa using hb
      have hfold : foldPick better ((m, nv) :: rest) value best
          = foldPick better rest value best := by simp [foldPick, hb']
      rcases ih value best with ⟨heq, hall⟩ | ⟨i', hi', heq, hbv, htake, hall⟩
      · left
        refine ⟨by rw [hfold, heq], ?_⟩
        intro x hx
        rcases List.mem_cons.mp hx with rfl | hx
        · exact hb'
        · exact hall x hx
      · right
        have hnvlt : better nv (rest.get ⟨i', hi'⟩).2 = true := Hneg hb' hbv
        refine ⟨i' + 1, by simpa using Nat.succ_lt_succ hi', ?_, ?_, ?_, ?_⟩
        · rw [hfold, heq]; rfl
        · simpa using hbv
        · intro x hx
          rw [List.take_succ_cons] at hx
          rcases List.mem_cons.mp hx with rfl | hx
          · simpa using hnvlt
          · simpa using htake x hx
        · intro x hx
          rcases List.mem_cons.mp hx with rfl | hx
          · simpa using Hasym hnvlt
          · simpa using hall x hx

theorem mm_loop_eq_childVals_foldPick {B : Type} [DecidableEq B]
    (playm : PyVal → B)
    (child : B → Cache B → Option (PyVal × XInt × Cache B))
    (better : XInt → XInt → Bool) :
    ∀ (ms : List PyVal) (value : XInt) (best : PyVal) (cache : Cache B),
      mm_loop playm child better ms value best cache
        = (mm_childVals playm child ms cache).map (fun p =>
            ((foldPick better (ms.zip p.1) value best).1,
              (foldPick better (ms.zip p.1) value best).2, p.2)) := by
  intro ms
  induction ms with
  | nil => intro value best cache; simp [mm_loop, mm_childVals, foldPick]
  | cons m rest ih =>
    intro value best cache
    simp only [mm_loop, mm_childVals]
    cases hs : mm_child_step child (playm m) cache with
    | none => simp
    | some p =>
      obtain ⟨nv, cache2⟩ := p
      simp only
      cases hcv : mm_childVals playm child rest cache2 with
      | none =>
        by_cases hb : better value nv
        · rw [if_pos hb, ih, hcv]; simp
        · rw [if_neg hb, ih, hcv]; simp
      | some q =>
        obtain ⟨vals, cfin⟩ := q
        by_cases hb : better value nv
        · rw [if_pos hb, ih, hcv]
          simp only [List.zip_cons_cons, foldPick, hb, if_true,
            Option.map_some']
          rfl
        · have hb' : better value nv = false := by simpa using hb
          rw [if_neg hb, ih, hcv]
          simp only [List.zip_cons_cons, foldPick, hb', if_false,
            Option.map_some']
          rfl

theorem lookupC_fin {B : Type} [DecidableEq B] {cache : Cache B}
    (h : FinCache cache) {nb : B} {p : PyVal × XInt}
    (hl : lookupC cache nb = some p) : ∃ n, p.2 = XInt.fin n := by
  induction cache with
  | nil => simp [lookupC] at hl
  | cons q t ih =>
    obtain ⟨k, v⟩ := q
    simp only [lookupC] at hl
    by_cases hk : k = nb
    · rw [if_pos hk] at hl
      have hv : v = p := by injection hl
      have := h (k, v) (List.mem_cons_self _ _)
      rw [hv] at this
      exact this
    · rw [if_neg hk] at hl
      exact ih (fun q hq => h q (List.mem_cons_of_mem _ hq)) hl

theorem insertC_fin {B : Type} [DecidableEq B] {cache : Cache B}
    (h : FinCache cache) (k : B) (mv : PyVal) (n : Int) :
    FinCache (insertC cache k (mv, XInt.fin n)) := by
  induction cache with
  | nil =>
    intro p hp
    simp only [insertC, List.mem_singleton] at hp
    exact ⟨n, by rw [hp]⟩
  | cons q t ih =>
    obtain ⟨k', w⟩ := q
    simp only [insertC]
    by_cases hk : k' = k
    · rw [if_pos hk]
      intro p hp
      rcases List.mem_cons.mp hp with rfl | hp
      · exact ⟨n, rfl⟩
      · exact h p (List.mem_cons_of_mem _ hp)
    · rw [if_neg hk]
      intro p hp
      rcases List.mem_cons.mp hp with rfl | hp
      · exact h (k', w) (List.mem_cons_self _ _)
      · exact ih (fun q hq => h q (List.mem_cons_of_mem _ hq)) p hp

theorem mm_child_step_fin {B : Type} [DecidableEq B]
    (child : B → Cache B → Option (PyVal × XInt × Cache B))
    (Hchild : ∀ (nb : B) (c : Cache B) r, FinCache c → child nb c = some r →
      (∃ n, r.2.1 = XInt.fin n) ∧ FinCache r.2.2)
    {nb : B} {cache : Cache B} {nv : XInt} {cache2 : Cache B}
    (hfin : FinCache cache)
    (h : mm_child_step child nb cache = some (nv, cache2)) :
    (∃ n, nv = XInt.fin n) ∧ FinCache cache2 := by
  simp only [mm_child_step] at h
  cases hl : lookupC cache nb with
  | some p =>
    obtain ⟨a, b⟩ := p
    rw [hl] at h
    simp only [Option.some.injEq, Prod.mk.injEq] at h
    obtain ⟨h1, h2⟩ := h
    refine ⟨?_, by rw [← h2]; exact hfin⟩
    have := lookupC_fin hfin hl
    simp only at this
    rw [← h1]; exact this
  | none =>
    rw [hl] at h
    cases hc : child nb cache with
    | none => rw [hc] at h; simp at h
    | some r =>
      obtain ⟨nm, nv', c1⟩ := r
      rw [hc] at h
      simp only [Option.some.injEq, Prod.mk.injEq] at h
      obtain ⟨h1, h2⟩ := h
      obtain ⟨⟨n, hn⟩, hfc⟩ := Hchild nb cache (nm, nv', c1) hfin hc
      simp only at hn
      refine ⟨⟨n, by rw [← h1]; exact hn⟩, ?_⟩
      rw [← h2, hn] at *
      exact insertC_fin hfc nb nm n

theorem mm_loop_fin {B : Type} [DecidableEq B] (playm : PyVal → B)
    (child : B → Cache B → Option (PyVal × XInt × Cache B))
    (better : XInt → XInt → Bool)
    (Hchild : ∀ (nb : B) (c : Cache B) r, FinCache c → child nb c = some r →
      (∃ n, r.2.1 = XInt.fin n) ∧ FinCache r.2.2) :
    ∀ (ms : List PyVal) (value : XInt) (best : PyVal) (cache : Cache B)
      (r : PyVal × XInt × Cache B), FinCache cache →
      mm_loop playm child better ms value best cache = some r →
      FinCache r.2.2 ∧ ((∃ n, r.2.1 = XInt.fin n) ∨ r.2.1 = value) := by
  intro ms
  induction ms with
  | nil =>
    intro value best cache r hfin h
    simp only [mm_loop, Option.some.injEq] at h
    rw [← h]
    exact ⟨hfin, Or.inr rfl⟩
  | cons m rest ih =>
    intro value best cache r hfin h
    simp only [mm_loop] at h
    cases hs : mm_child_step child (playm m) cache with
    | none => rw [hs] at h; exact absurd h (by simp)
    | some p =>
      obtain ⟨nv, cache2⟩ := p
      rw [hs] at h
      simp only at h
      obtain ⟨⟨n, hn⟩, hfc2⟩ := mm_child_step_fin child Hchild hfin hs
      by_cases hb : better value nv
      · rw [if_pos hb] at h
        obtain ⟨hf, hv⟩ := ih nv m cache2 r hfc2 h
        refine ⟨hf, Or.inl ?_⟩
        rcases hv with hv | hv
        · exact hv
        · exact ⟨n, by rw [hv, hn]⟩
      · rw [if_neg hb] at h
        exact ih value best cache2 r hfc2 h

theorem minimax_node_fin {B : Type} [DecidableEq B] (R : Rules B) :
    ∀ (fuel : Nat) (isMax : Bool) (board : B) (color limit caching : Int)
      (cache : Cache B) (r : PyVal × XInt × Cache B), FinCache cache →
      minimax_node R fuel isMax board color limit caching cache = some r →
      (∃ n, r.2.1 = XInt.fin n) ∧ FinCache r.2.2 := by
  intro fuel
  induction fuel with
  | zero =>
    intro isMax board color limit caching cache r _ h
    exact absurd h (by simp [minimax_node])
  | succ fuel ih =>
    intro isMax board color limit caching cache r hfin h
    simp only [minimax_node] at h
    by_cases hterm : R.get_possible_moves board color = [] ∨ limit = 0
    · rw [if_pos hterm] at h
      simp only [Option.some.injEq] at h
      rw [← h]
      exact ⟨⟨compute_utility R board color, rfl⟩, hfin⟩
    · rw [if_neg hterm] at h
      have Hchild : ∀ (nb : B) (c : Cache B) r', FinCache c →
          minimax_node R fuel (!isMax) nb (if color = 1 then 2 else 1)
            (limit - 1) caching c = some r' →
          (∃ n, r'.2.1 = XInt.fin n) ∧ FinCache r'.2.2 :=
        fun nb c r' hc hr' => ih (!isMax) nb _ (limit - 1) caching c r' hc hr'
      cases hmv : R.get_possible_moves board color with
      | nil => exact absurd (Or.inl hmv) hterm
      | cons m rest =>
        rw [hmv] at h
        simp only [mm_loop] at h
        cases hs : mm_child_step
            (fun nb c => minimax_node R fuel (!isMax) nb
              (if color = 1 then 2 else 1) (limit - 1) caching c)
            (R.play_move board color (m.idx 0) (m.idx 1)) cache with
        | none => rw [hs] at h; exact absurd h (by simp)
        | some p =>
          obtain ⟨nv, cache2⟩ := p
          rw [hs] at h
          simp only at h
          obtain ⟨⟨n, hn⟩, hfc2⟩ := mm_child_step_fin _ Hchild hfin hs
          rw [hn, if_pos (mmBetter_init_fin isMax n)] at h
          obtain ⟨hf, hv⟩ := mm_loop_fin _ _ _ Hchild _ _ _ _ _ hfc2 h
          refine ⟨?_, hf⟩
          rcases hv with hv | hv
          · exact hv
          · exact ⟨n, hv⟩

theorem minimax_node_first_strict {B : Type} [DecidableEq B] (R : Rules B)
    (fuel : Nat) (isMax : Bool) (board : B) (color limit caching : Int)
    (cache : Cache B) (hfin : FinCache cache)
    (hmoves : R.get_possible_moves board color ≠ []) (hlimit : limit ≠ 0)
    (bm : PyVal) (v : XInt) (cache' : Cache B)
    (h : minimax_node R (fuel + 1) isMax board color limit caching cache
      = some (bm, v, cache')) :
    ∃ vals,
      mm_childVals (fun m => R.play_move board color (m.idx 0) (m.idx 1))
          (fun nb c => minimax_node R fuel (!isMax) nb
            (if color = 1 then 2 else 1) (limit - 1) caching c)
          (R.get_possible_moves board color) cache = some (vals, cache') ∧
        FirstStrictBest (mmBetter isMax)
          ((R.get_possible_moves board color).zip vals) bm v := by
  obtain ⟨⟨n, hvfin⟩, _⟩ := minimax_node_fin R (fuel + 1) isMax board color
    limit caching cache (bm, v, cache') hfin h
  simp only at hvfin
  simp only [minimax_node] at h
  have hterm : ¬(R.get_possible_moves board color = [] ∨ limit = 0) := by
    push_neg; exact ⟨hmoves, hlimit⟩
  rw [if_neg hterm] at h
  rw [mm_loop_eq_childVals_foldPick] at h
  rw [Option.map_eq_some'] at h
  obtain ⟨⟨vals, cfin⟩, hcv, heq⟩ := h
  simp only [Prod.mk.injEq] at heq
  obtain ⟨h1, h2, h3⟩ := heq
  refine ⟨vals, by rw [hcv, h3], ?_⟩
  rcases foldPick_spec (mmBetter isMax) (mmBetter_irrefl isMax)
      (fun ha hb => mmBetter_trans isMax ha hb)
      (fun ha => mmBetter_asymm isMax ha)
      (fun ha hb => mmBetter_neg_trans isMax ha hb)
      ((R.get_possible_moves board color).zip vals) (mmInit isMax) PyVal.none
    with ⟨hpe, _⟩ | ⟨i, hi, hpe, _, htake, hall⟩
  · exfalso
    have hvi : v = mmInit isMax := by rw [← h2, hpe]
    exact mmInit_ne_fin isMax n (by rw [← hvi, hvfin])
  · have hbm : bm
        = (((R.get_possible_moves board color).zip vals).get ⟨i, hi⟩).1 := by
      rw [← h1, hpe]
    have hv2 : v
        = (((R.get_possible_moves board color).zip vals).get ⟨i, hi⟩).2 := by
      rw [← h2, hpe]
    refine ⟨i, hi, hbm, hv2, ?_, ?_⟩
    · intro x hx; rw [hv2]; exact htake x hx
    · intro x hx; rw [hv2]; exact hall x hx

/-! ### Claim theorems -/

/-- C5: for every rules engine and board, utility is antisymmetric between
the two players: `compute_utility(board, 1) = -compute_utility(board, 2)`. -/
theorem compute_utility_antisymm {B : Type} (R : Rules B) (board : B) :
    compute_utility R board 1 = - compute_utility R board 2 := by
  simp only [compute_utility]
  norm_num

/-- C4: when the acting color has no legal moves, both search engines return
the pass sentinel `None` together with `compute_utility(board, color)`, the
cache untouched, for every depth limit and flag setting; the corresponding
`select_move` entry points return the pass sentinel. -/
theorem select_move_pass_on_no_moves {B : Type} [DecidableEq B] (R : Rules B)
    (fuel : Nat) (board : B) (color limit caching ordering : Int)
    (alpha beta : XInt) (cache : Cache B)
    (h : R.get_possible_moves board color = []) :
    minimax_max_node R (fuel + 1) board color limit caching cache
        = some (PyVal.none, XInt.fin (compute_utility R board color), cache) ∧
      alphabeta_max_node R (fuel + 1) board color alpha beta limit caching
          ordering cache
        = some (PyVal.none, XInt.fin (compute_utility R board color), cache) ∧
      select_move_minimax R (fuel + 1) board color limit caching cache
        = some PyVal.none ∧
      select_move_alphabeta R (fuel + 1) board color limit caching ordering cache
        = some PyVal.none := by
  simp [minimax_max_node, alphabeta_max_node, select_move_minimax,
    select_move_alphabeta, minimax_node, alphabeta_node, h]

/-- C4 witness: on a rules engine with no legal moves, the searches return
the pass sentinel and the utility of the board. -/
theorem select_move_pass_on_no_moves_witness :
    emptyRules.get_possible_moves 0 1 = [] ∧
      select_move_minimax emptyRules 1 0 1 5 0 [] = some PyVal.none := by
  refine ⟨rfl, ?_⟩
  exact (select_move_pass_on_no_moves emptyRules 0 0 1 5 0 0 XInt.negInf
    XInt.posInf [] rfl).2.2.1

/-- C1 fails on the code: from identical inputs (empty cache, caching flag
`0`, ordering disabled), minimax selects move `(1, 1)` with value `12` while
alpha-beta selects `(0, 0)` with value `10` on the `toy` game.  The cache is
consulted and updated regardless of the caching flag, and alpha-beta stores
the pruned bound `10` for board `4` (true value `18`), which a later cache
hit on the transposition from board `2` turns into a premature cutoff. -/
theorem minimax_alphabeta_disagree :
    select_move_minimax toy 10 0 1 3 0 [] = some (pv 1 1) ∧
      select_move_alphabeta toy 10 0 1 3 0 0 [] = some (pv 0 0) ∧
      (minimax_max_node toy 10 0 1 3 0 []).map (fun r => (r.1, r.2.1))
        = some (pv 1 1, XInt.fin 12) ∧
      (alphabeta_max_node toy 10 0 1 XInt.negInf XInt.posInf 3 0 0 []).map
          (fun r => (r.1, r.2.1))
        = some (pv 0 0, XInt.fin 10) ∧
      select_move_minimax toy 10 0 1 3 0 []
        ≠ select_move_alphabeta toy 10 0 1 3 0 0 [] := by
  decide

/-- C2 fails on the code: with the caching flag `0` the search still reads
and writes the transposition cache.  Pre-seeding the cache changes the
selected move (the cache is consulted), and a run from the empty cache
leaves seven entries behind (the cache is updated). -/
theorem cache_used_despite_flag_off :
    select_move_minimax toy 10 0 1 3 0 [] = some (pv 1 1) ∧
      select_move_minimax toy 10 0 1 3 0 [(4, (PyVal.none, XInt.fin 0))]
        = some (pv 0 0) ∧
      (minimax_max_node toy 10 0 1 3 0 []).map (fun r => r.2.2.length)
        = some 7 := by
  decide

/-- C3 fails on the code: with ordering disabled `select_move_alphabeta`
picks the legal move `(1, 1)` on board `4`, but with ordering enabled the
loop iterates the `[move, utility]` pairs built by the sort, hands the pair
to `play_move` in place of a coordinate, and returns the pair
`[(0, 0), -10]` itself as the selected move. -/
theorem ordering_changes_selected_move :
    select_move_alphabeta toy 10 4 1 1 0 0 [] = some (pv 1 1) ∧
      select_move_alphabeta toy 10 4 1 1 0 1 []
        = some (PyVal.pair (pv 0 0) (PyVal.int (-10))) ∧
      select_move_alphabeta toy 10 4 1 1 0 1 []
        ≠ select_move_alphabeta toy 10 4 1 1 0 0 [] := by
  decide

/-- C8 fails on the code: with no legal moves `compute_heuristic` returns
the documented `(None, utility)` tuple (board `3`), but when legal moves
exist it executes `return best_move` alone: the bare sentinel `None` when no
move survives the filters (board `4`), or the bare move `(0, 0)` with no
accompanying utility value (board `8`). -/
theorem compute_heuristic_returns_bare_move :
    compute_heuristic toy 3 1 = PyVal.pair PyVal.none (PyVal.int 10) ∧
      compute_heuristic toy 4 1 = PyVal.none ∧
      compute_heuristic toy 8 1 = pv 0 0 := by
  decide

/-- C6: at every non-terminal maximize node of the minimax search (and
symmetrically every minimize node), the returned move is the first move in
enumeration order whose child value strictly improves on every earlier
child's value, and no child value is strictly better than the returned one —
a later move with an equal value never replaces the remembered move.  The
child values are the ones the loop actually sees (`mm_childVals`), cache
threading included; the cache hypothesis `FinCache` states that the stored
values are finite integers, as after any run started from an empty cache. -/
theorem minimax_first_strict_improvement {B : Type} [DecidableEq B]
    (R : Rules B) (fuel : Nat) (board : B) (color limit caching : Int)
    (cache : Cache B) (hfin : FinCache cache)
    (hmoves : R.get_possible_moves board color ≠ []) (hlimit : limit ≠ 0) :
    (∀ bm v cache',
        minimax_max_node R (fuel + 1) board color limit caching cache
            = some (bm, v, cache') →
        ∃ vals,
          mm_childVals (fun m => R.play_move board color (m.idx 0) (m.idx 1))
              (fun nb c => minimax_min_node R fuel nb
                (if color = 1 then 2 else 1) (limit - 1) caching c)
              (R.get_possible_moves board color) cache = some (vals, cache') ∧
            FirstStrictBest (mmBetter true)
              ((R.get_possible_moves board color).zip vals) bm v) ∧
      (∀ bm v cache',
        minimax_min_node R (fuel + 1) board color limit caching cache
            = some (bm, v, cache') →
        ∃ vals,
          mm_childVals (fun m => R.play_move board color (m.idx 0) (m.idx 1))
              (fun nb c => minimax_max_node R fuel nb
                (if color = 1 then 2 else 1) (limit - 1) caching c)
              (R.get_possible_moves board color) cache = some (vals, cache') ∧
            FirstStrictBest (mmBetter false)
              ((R.get_possible_moves board color).zip vals) bm v) := by
  constructor
  · intro bm v cache' h
    exact minimax_node_first_strict R fuel true board color limit caching
      cache hfin hmoves hlimit bm v cache' h
  · intro bm v cache' h
    exact minimax_node_first_strict R fuel false board color limit caching
      cache hfin hmoves hlimit bm v cache' h

/-- C6 witness: on board `4` of the `toy` game at depth `1`, the maximize
node sees child values `[10, 18]` and returns the second move `(1, 1)`
(value `18`, strictly better than the earlier `10`); the minimize node
returns the first move `(0, 0)` (value `10`). -/
theorem minimax_first_strict_improvement_witness :
    (∃ vals,
      mm_childVals (fun m => toy.play_move 4 1 (m.idx 0) (m.idx 1))
          (fun nb c => minimax_min_node toy 9 nb 2 0 0 c)
          (toy.get_possible_moves 4 1) []
          = some (vals,
            [(6, (PyVal.none, XInt.fin 10)), (7, (PyVal.none, XInt.fin 18))]) ∧
        FirstStrictBest (mmBetter true) ((toy.get_possible_moves 4 1).zip vals)
          (pv 1 1) (XInt.fin 18)) ∧
      (∃ vals,
        mm_childVals (fun m => toy.play_move 4 1 (m.idx 0) (m.idx 1))
            (fun nb c => minimax_max_node toy 9 nb 2 0 0 c)
            (toy.get_possible_moves 4 1) []
            = some (vals,
              [(6, (PyVal.none, XInt.fin 10)),
                (7, (PyVal.none, XInt.fin 18))]) ∧
          FirstStrictBest (mmBetter false)
            ((toy.get_possible_moves 4 1).zip vals) (pv 0 0) (XInt.fin 10)) := by
  have hc := minimax_first_strict_improvement toy 9 4 1 1 0 []
    (fun p hp => absurd hp (List.not_mem_nil p)) (by decide) (by decide)
  constructor
  · exact hc.1 (pv 1 1) (XInt.fin 18)
      [(6, (PyVal.none, XInt.fin 10)), (7, (PyVal.none, XInt.fin 18))]
      (by decide)
  · exact hc.2 (pv 0 0) (XInt.fin 10)
      [(6, (PyVal.none, XInt.fin 10)), (7, (PyVal.none, XInt.fin 18))]
      (by decide)

/-- C7: when every legal move strictly decreases a measure on boards (in
Othello, the number of empty cells — the rules engine is external, so the
property is a hypothesis), the unlimited search (`limit = -1`) terminates
within `μ(board) + 1` levels of recursion and returns the pass sentinel or a
legal move of the input board, from any cache contents. -/
theorem select_move_unlimited_terminates {B : Type} [DecidableEq B]
    (R : Rules B) (μ : B → Nat)
    (hμ : ∀ (b : B) (c : Int) (m : PyVal), m ∈ R.get_possible_moves b c →
      μ (R.play_move b c (m.idx 0) (m.idx 1)) < μ b)
    (board : B) (color caching : Int) (cache : Cache B) :
    ∃ mv, select_move_minimax R (μ board + 1) board color (-1) caching cache
        = some mv ∧
      (mv = PyVal.none ∨ mv ∈ R.get_possible_moves board color) := by
  have hs := minimax_node_isSome R μ hμ (μ board + 1) board (by omega) true
    color (-1) caching cache
  obtain ⟨r, hr⟩ := Option.isSome_iff_exists.mp hs
  refine ⟨r.1, ?_, ?_⟩
  · simp [select_move_minimax, minimax_max_node, hr]
  · exact minimax_node_mem R _ true board color (-1) caching cache r hr

/-- C7 witness: on the counter game, the unlimited search from board `3`
terminates and selects its legal move. -/
theorem select_move_unlimited_terminates_witness :
    ∃ mv, select_move_minimax toyTerm 4 3 1 (-1) 0 [] = some mv ∧
      (mv = PyVal.none ∨ mv ∈ toyTerm.get_possible_moves 3 1) := by
  exact select_move_unlimited_terminates toyTerm (fun b => b)
    (by
      intro b c m hm
      by_cases hb : b = 0
      · subst hb; simp [toyTerm] at hm
      · simp only [toyTerm]; omega)
    3 1 0 []

/-- C9 amended: a negative depth limit other than `-1` is not rejected — no
validation exists at the boundary; instead the engines treat every negative
limit identically to the unlimited sentinel `-1`, because `limit` is only
ever compared against `0` and decremented. -/
theorem negative_limit_behaves_as_unlimited {B : Type} [DecidableEq B]
    (R : Rules B) (fuel : Nat) (board : B) (color caching ordering : Int)
    (alpha beta : XInt) (cache : Cache B) (l1 l2 : Int)
    (h1 : l1 < 0) (h2 : l2 < 0) :
    minimax_max_node R fuel board color l1 caching cache
        = minimax_max_node R fuel board color l2 caching cache ∧
      select_move_minimax R fuel board color l1 caching cache
        = select_move_minimax R fuel board color l2 caching cache ∧
      alphabeta_max_node R fuel board color alpha beta l1 caching ordering cache
        = alphabeta_max_node R fuel board color alpha beta l2 caching ordering
          cache ∧
      select_move_alphabeta R fuel board color l1 caching ordering cache
        = select_move_alphabeta R fuel board color l2 caching ordering cache := by
  have hmm := minimax_node_neg_limit R fuel true board color l1 l2 caching
    cache h1 h2
  have hab1 := alphabeta_node_neg_limit R fuel true board color alpha beta
    l1 l2 caching ordering cache h1 h2
  have hab2 := alphabeta_node_neg_limit R fuel true board color XInt.negInf
    XInt.posInf l1 l2 caching ordering cache h1 h2
  refine ⟨hmm, ?_, hab1, ?_⟩
  · simp only [select_move_minimax, minimax_max_node, hmm]
  · simp only [select_move_alphabeta, alphabeta_max_node, hab2]

/-- C9 amended witness: on the `toy` game, limits `-2` and `-1` drive
identical searches. -/
theorem negative_limit_behaves_as_unlimited_witness :
    (-2 : Int) < 0 ∧ (-1 : Int) < 0 ∧
      select_move_minimax toy 10 0 1 (-2) 0 []
        = select_move_minimax toy 10 0 1 (-1) 0 [] := by
  refine ⟨by decide, by decide, ?_⟩
  exact (negative_limit_behaves_as_unlimited toy 10 0 1 0 0 XInt.negInf
    XInt.posInf [] (-2) (-1) (by decide) (by decide)).2.1

/-- C10: for every rules engine, board, color, depth limit, caching value
and cache contents, `select_move_minimax` — and `select_move_alphabeta` with
ordering disabled — returns either the pass sentinel or one of
`get_possible_moves(board, color)`: cached child values never leak a foreign
move into the result. -/
theorem select_move_in_legal_moves {B : Type} [DecidableEq B] (R : Rules B)
    (fuel : Nat) (board : B) (color limit caching : Int) (cache : Cache B) :
    (∀ mv, select_move_minimax R fuel board color limit caching cache = some mv →
        mv = PyVal.none ∨ mv ∈ R.get_possible_moves board color) ∧
      (∀ mv,
        select_move_alphabeta R fuel board color limit caching 0 cache = some mv →
        mv = PyVal.none ∨ mv ∈ R.get_possible_moves board color) := by
  constructor
  · intro mv h
    simp only [select_move_minimax, minimax_max_node, Option.map_eq_some'] at h
    obtain ⟨r, hr, hmv⟩ := h
    rw [← hmv]
    exact minimax_node_mem R fuel true board color limit caching cache r hr
  · intro mv h
    simp only [select_move_alphabeta, alphabeta_max_node,
      Option.map_eq_some'] at h
    obtain ⟨r, hr, hmv⟩ := h
    rw [← hmv]
    exact alphabeta_node_mem R fuel true board color XInt.negInf XInt.posInf
      limit caching cache r hr

/-- C10 witness: on the `toy` game both engines return a member of the legal
move list of board `0`. -/
theorem select_move_in_legal_moves_witness :
    (pv 1 1 = PyVal.none ∨ pv 1 1 ∈ toy.get_possible_moves 0 1) ∧
      (pv 0 0 = PyVal.none ∨ pv 0 0 ∈ toy.get_possible_moves 0 1) := by
  constructor
  · exact (select_move_in_legal_moves toy 10 0 1 3 0 []).1 (pv 1 1) (by decide)
  · exact (select_move_in_legal_moves toy 10 0 1 3 0 []).2 (pv 0 0) (by decide)

/-- C9 fails on the code: no boundary validation exists, and a depth limit
of `-2` is not rejected — the minimax engine runs a full search on the `toy`
game, returns the move `(1, 1)`, and populates seven cache entries along the
way, exactly as with the unlimited sentinel `-1`. -/
theorem negative_limit_not_rejected :
    select_move_minimax toy 10 0 1 (-2) 0 [] = some (pv 1 1) ∧
      (minimax_max_node toy 10 0 1 (-2) 0 []).map (fun r => r.2.2.length)
        = some 7 ∧
      select_move_minimax toy 10 0 1 (-2) 0 []
        = select_move_minimax toy 10 0 1 (-1) 0 [] := by
  decide
